import Mathlib

/-!
Shallow embedding of `src/core/optimal_fit.rs` from the `textwrap` repository.

Machine integers (`usize`) are modelled as `ℕ`; the `f64` costs are modelled
as exact rationals `ℚ` (all cost arithmetic in the source stays well inside
the exactly-representable range for the inputs considered here, and the
claims under study are about the cost formulas, not about rounding).
The externally provided `smawk::online_column_minima` is modelled from the
spec (see its doc comment below).
-/

namespace OptimalFit

/-- A pre-sized text fragment: the `Fragment` trait of the source exposes
exactly these three non-negative widths. -/
structure Fragment where
  width : ℕ
  whitespace_width : ℕ
  penalty_width : ℕ
deriving DecidableEq, Repr, Inhabited

/-- Per-line penalty (`NLINE_PENALTY`). -/
def NLINE_PENALTY : ℚ := 1000

/-- Penalty for a line with the maximum possible gap (`MAX_LINE_PENALTY`). -/
def MAX_LINE_PENALTY : ℚ := 10000

/-- Per-character cost for overflowing lines (`OVERFLOW_PENALTY`). -/
def OVERFLOW_PENALTY : ℚ := 2 * MAX_LINE_PENALTY

/-- The last line is short if it is less than 1/4 of the target width
(`SHORT_LINE_FRACTION`). -/
def SHORT_LINE_FRACTION : ℕ := 4

/-- Penalty for a short last line (`SHORT_LAST_LINE_PENALTY`). -/
def SHORT_LAST_LINE_PENALTY : ℚ := 125

/-- Penalty for lines ending with a hyphen (`HYPHEN_PENALTY`). -/
def HYPHEN_PENALTY : ℚ := 150

/-- `line_penalty` from the source: cost of the line spanning
`fragments[i..j]` given the pre-computed `line_width`, the `target_width`,
and the optimal cost `minimum_cost` of breaking `fragments[..i]`.
Rust's `fragments[j - 1]` is modelled with `List.getD`; the solver only
calls this with `1 ≤ j ≤ fragments.len()`, where the access is in bounds. -/
def line_penalty (i j : ℕ) (fragments : List Fragment)
    (line_width target_width : ℕ) (minimum_cost : ℚ) : ℚ :=
  let base := minimum_cost + NLINE_PENALTY
  let shaped :=
    if target_width < line_width then
      base + ((line_width - target_width : ℕ) : ℚ) * OVERFLOW_PENALTY
    else if j < fragments.length then
      let gap : ℚ := ((target_width - line_width : ℕ) : ℚ) / (target_width : ℚ)
      base + gap * gap * MAX_LINE_PENALTY
    else if i + 1 = j ∧ line_width < target_width / SHORT_LINE_FRACTION then
      base + SHORT_LAST_LINE_PENALTY
    else base
  if 0 < (fragments.getD (j - 1) default).penalty_width then
    shaped + HYPHEN_PENALTY
  else shaped

/-- The prefix-sum loop at the top of `wrap_optimal_fit`: starting from the
running width `width`, push the running total after each fragment. -/
def widthsFrom (width : ℕ) : List Fragment → List ℕ
  | [] => [width]
  | f :: rest => width :: widthsFrom (width + (f.width + f.whitespace_width)) rest

/-- The `widths` vector of `wrap_optimal_fit`: `widths[0] = 0` and
`widths[k+1] = widths[k] + fragments[k].width() + fragments[k].whitespace_width()`. -/
def widths (fragments : List Fragment) : List ℕ :=
  widthsFrom 0 fragments

/-- Closed form for entries of `widths`: the summed width of the first `k`
fragments (content plus trailing whitespace). -/
def prefixWidth (fragments : List Fragment) (k : ℕ) : ℕ :=
  ((fragments.take k).map (fun f => f.width + f.whitespace_width)).sum

/-- `LineNumbers::get`: walk the predecessor chain of the minima table.
The memoized recursion of the source terminates only because predecessors
strictly decrease; this is made explicit with fuel.  One unit of fuel is
consumed per recursive step, and the base case `k = 0` consumes none, so
`lineNumberGo minima fuel k = some v` says the walk finishes in at most
`fuel` steps with line number `v`. -/
def lineNumberGo (minima : List (ℕ × ℚ)) : ℕ → ℕ → Option ℕ
  | _, 0 => some 0
  | 0, _ + 1 => none
  | fuel + 1, k + 1 =>
      (lineNumberGo minima fuel (minima.getD (k + 1) (0, 0)).1).map (· + 1)

/-- Line number for fragment boundary `k`: fuel `k` always suffices when
predecessors strictly decrease (proved below), so the default is never hit
on tables built by the solver. -/
def lineNumber (minima : List (ℕ × ℚ)) (k : ℕ) : ℕ :=
  (lineNumberGo minima k k).getD 0

/-- `std::cmp::max(1, line_widths(line_number))` from the cost closure. -/
def target_width (line_widths : ℕ → ℕ) (line_number : ℕ) : ℕ :=
  max 1 (line_widths line_number)

/-- The cost closure passed to `smawk::online_column_minima` in
`wrap_optimal_fit`. -/
def cost (fragments : List Fragment) (w : List ℕ) (line_widths : ℕ → ℕ)
    (minima : List (ℕ × ℚ)) (i j : ℕ) : ℚ :=
  let line_number := lineNumber minima i
  let tw := target_width line_widths line_number
  let line_width := w.getD j 0 - w.getD i 0
      - (fragments.getD (j - 1) default).whitespace_width
      + (fragments.getD (j - 1) default).penalty_width
  let minimum_cost := (minima.getD i (0, 0)).2
  line_penalty i j fragments line_width tw minimum_cost

/-- One step of the reference column-minima search: the row `i ∈ [0, j)`
minimizing `f i`, together with the minimum value (earliest row on ties). -/
def minimizeRow (f : ℕ → ℚ) (j : ℕ) : ℕ × ℚ :=
  (List.range j).foldl (fun best i => if f i < best.2 then (i, f i) else best) (0, f 0)

/-- Append `cols` further columns to the minima table, finalizing columns
left to right; the cost of column `j` may consult all previously finalized
entries. -/
def ocmExtend (c : List (ℕ × ℚ) → ℕ → ℕ → ℚ) : ℕ → List (ℕ × ℚ) → List (ℕ × ℚ)
  | 0, minima => minima
  | cols + 1, minima =>
      ocmExtend c cols
        (minima ++ [minimizeRow (fun i => c minima i minima.length) minima.length])

/-- Modelled from the spec: `smawk::online_column_minima` is an external
crate, absent from this repository's sources.  Per §4.4 it must produce the
minima table: entry `0` is `(0, init)`, and for every later column `j` the
entry records a row `i < j` minimizing `cost(minima-so-far, i, j)` together
with that minimum, finalizing columns left to right and consulting only
previously finalized rows. -/
def online_column_minima (init : ℚ) (size : ℕ)
    (c : List (ℕ × ℚ) → ℕ → ℕ → ℚ) : List (ℕ × ℚ) :=
  ocmExtend c (size - 1) [(0, init)]

/-- The backtracking loop of `wrap_optimal_fit` (a do-while: the body runs
once before `pos == 0` is tested).  Emits the spans `(prev, pos)` in the
order the source pushes the slices.  Fuel makes the termination argument
explicit; the source loop terminates only because predecessors strictly
decrease. -/
def extractSpansGo (minima : List (ℕ × ℚ)) : ℕ → ℕ → Option (List (ℕ × ℕ))
  | 0, pos =>
      if (minima.getD pos (0, 0)).1 = 0 then some [((minima.getD pos (0, 0)).1, pos)]
      else none
  | fuel + 1, pos =>
      if (minima.getD pos (0, 0)).1 = 0 then some [((minima.getD pos (0, 0)).1, pos)]
      else
        (extractSpansGo minima fuel (minima.getD pos (0, 0)).1).map
          (fun rest => ((minima.getD pos (0, 0)).1, pos) :: rest)

/-- The minima table computed inside `wrap_optimal_fit`. -/
def wrapMinima (fragments : List Fragment) (line_widths : ℕ → ℕ) : List (ℕ × ℚ) :=
  online_column_minima 0 (widths fragments).length (cost fragments (widths fragments) line_widths)

/-- The line spans produced by `wrap_optimal_fit`, in final (reversed,
left-to-right) order. -/
def wrapSpans (fragments : List Fragment) (line_widths : ℕ → ℕ) : List (ℕ × ℕ) :=
  ((extractSpansGo (wrapMinima fragments line_widths) fragments.length fragments.length).getD
    []).reverse

/-- Rust's slice `&fragments[a..b]`. -/
def sliceOf (fragments : List Fragment) (s : ℕ × ℕ) : List Fragment :=
  (fragments.drop s.1).take (s.2 - s.1)

/-- `wrap_optimal_fit`: wrap abstract fragments into lines with the
optimal-fit algorithm. -/
def wrap_optimal_fit (fragments : List Fragment) (line_widths : ℕ → ℕ) :
    List (List Fragment) :=
  (wrapSpans fragments line_widths).map (sliceOf fragments)

/-- The `line_width` value the cost closure computes for the line
`fragments[i..j]`, expressed through the closed form `prefixWidth`
(equal to the closure's `widths[j] - widths[i] - whitespace + penalty`
whenever `j ≤ fragments.length`; proved below). -/
def refLineWidth (fragments : List Fragment) (i j : ℕ) : ℕ :=
  prefixWidth fragments j - prefixWidth fragments i
    - (fragments.getD (j - 1) default).whitespace_width
    + (fragments.getD (j - 1) default).penalty_width

/-- Cost contributed by the single line `fragments[i..j]` at target width
`tw`, with no earlier cost: the per-line term of the §4.3 formula. -/
def lineTerm (fragments : List Fragment) (tw : ℕ) (i j : ℕ) : ℚ :=
  line_penalty i j fragments (refLineWidth fragments i j) tw 0

/-- All partitions of the boundary range `[0, j)` into consecutive line
spans, with explicit fuel (any `fuel ≥ j` gives the same list). -/
def partsF : ℕ → ℕ → List (List (ℕ × ℕ))
  | _, 0 => [[]]
  | 0, _ + 1 => []
  | fuel + 1, j + 1 =>
      (List.range (j + 1)).flatMap fun i => (partsF fuel i).map fun p => p ++ [(i, j + 1)]

/-- The brute-force search space of the spec: all `2^(n-1)` break-point
combinations for `n` fragments, each as the list of line spans in order. -/
def parts (n : ℕ) : List (List (ℕ × ℕ)) :=
  partsF n n

/-- Total cost of a list of line spans per the §4.3 formula, the `k`-th
listed line being typeset at target width `max 1 (line_widths k)`; `k0` is
the line number of the first listed span. -/
def partCostFrom (fragments : List Fragment) (line_widths : ℕ → ℕ) :
    ℕ → List (ℕ × ℕ) → ℚ
  | _, [] => 0
  | k, s :: rest =>
      lineTerm fragments (target_width line_widths k) s.1 s.2
        + partCostFrom fragments line_widths (k + 1) rest

/-- The brute-force reference total cost of a line partition. -/
def partCost (fragments : List Fragment) (line_widths : ℕ → ℕ)
    (spans : List (ℕ × ℕ)) : ℚ :=
  partCostFrom fragments line_widths 0 spans

/-- Concrete example input used by the C5 theorems. -/
def exC5 : List Fragment := [⟨2, 1, 0⟩, ⟨2, 0, 0⟩]

/-- Concrete example input used by the C10 witness. -/
def exC10 : List Fragment := [⟨2, 1, 0⟩, ⟨3, 0, 1⟩]

/-- The line-cost formula exactly as claim C3 words it: base
`minimum_cost + NLINE_PENALTY`; plus the linear overflow term when the
line overflows; otherwise the quadratic gap penalty when this is not the
final line; otherwise the short-last-line penalty exactly when the final
line is a single fragment narrower than a quarter of the target; finally
plus the hyphen penalty exactly when the closing fragment has a nonzero
break-marker width. -/
def line_penalty_spec (i j : ℕ) (fragments : List Fragment)
    (line_width target_width : ℕ) (minimum_cost : ℚ) : ℚ :=
  minimum_cost + NLINE_PENALTY
    + (if target_width < line_width then
        ((line_width - target_width : ℕ) : ℚ) * OVERFLOW_PENALTY
      else if j < fragments.length then
        (((target_width - line_width : ℕ) : ℚ) / (target_width : ℚ)) ^ 2 * MAX_LINE_PENALTY
      else if j = i + 1 ∧ line_width < target_width / 4 then
        SHORT_LAST_LINE_PENALTY
      else 0)
    + (if 0 < (fragments.getD (j - 1) default).penalty_width then HYPHEN_PENALTY else 0)

/-- The line width as claim C5 words it: the total width of
`fragments[i..j]` (content plus trailing whitespace), plus the closing
fragment's break-marker width, minus the closing fragment's trailing
whitespace if and only if this is the paragraph's last line (`j = n`). -/
def line_width_claim (fragments : List Fragment) (i j : ℕ) : ℕ :=
  (((fragments.drop i).take (j - i)).map (fun f => f.width + f.whitespace_width)).sum
    + (fragments.getD (j - 1) default).penalty_width
    - (if j = fragments.length then (fragments.getD (j - 1) default).whitespace_width else 0)

/-- Concrete input for the C1 counterexample. -/
def exC1 : List Fragment := [⟨0, 1, 0⟩, ⟨1, 1, 0⟩, ⟨2, 0, 0⟩]

/-- Varying target-width function for the C1 counterexample: width 0 for
line 0 (clamped to 1), width 2 for line 1, width 0 afterwards. -/
def exC1lw : ℕ → ℕ := fun k => [0, 2, 0].getD k 0

/-- The cost matrix of claim C7: entry `(i, j)` is the cost closure of
`wrap_optimal_fit` evaluated at rows/columns `(i, j)` over the minima
table the run produces (for `i < j` the partially built table and the
final table agree on everything the closure reads). -/
def costMatrix (fragments : List Fragment) (lw : ℕ → ℕ) (i j : ℕ) : ℚ :=
  cost fragments (widths fragments) lw (wrapMinima fragments lw) i j

/-- Concrete input for the C7 counterexample: three one-column words
("a a a") at constant target width 3. -/
def exC7 : List Fragment := [⟨1, 1, 0⟩, ⟨1, 1, 0⟩, ⟨1, 0, 0⟩]

/-- The shape penalty of a non-final line as a function of line width `x`
and clamped target width `T`: linear overflow above `T`, quadratic gap at
or below `T`. -/
def fShape (T x : ℕ) : ℚ :=
  if T < x then ((x - T : ℕ) : ℚ) * OVERFLOW_PENALTY
  else
    (((T - x : ℕ) : ℚ) / (T : ℚ)) * (((T - x : ℕ) : ℚ) / (T : ℚ)) * MAX_LINE_PENALTY

/-! ### Generic list helpers -/

theorem getD_take {α : Type} (l : List α) (n i : ℕ) (h : i < n) (d : α) :
    (l.take n).getD i d = l.getD i d := by
  simp [List.getD_eq_getElem?_getD, List.getElem?_take, h]

/-! ### The width prefix sums -/

theorem widthsFrom_length (fs : List Fragment) : ∀ a : ℕ, (widthsFrom a fs).length = fs.length + 1 := by
  induction fs with
  | nil => intro a; rfl
  | cons f rest ih => intro a; simp [widthsFrom, ih]

theorem widths_length (fs : List Fragment) : (widths fs).length = fs.length + 1 :=
  widthsFrom_length fs 0

theorem prefixWidth_zero (fs : List Fragment) : prefixWidth fs 0 = 0 := rfl

theorem widthsFrom_getD (fs : List Fragment) :
    ∀ a k : ℕ, k ≤ fs.length → (widthsFrom a fs).getD k 0 = a + prefixWidth fs k := by
  induction fs with
  | nil =>
    intro a k hk
    have hk0 : k = 0 := by simpa using hk
    subst hk0
    simp [widthsFrom, prefixWidth]
  | cons f rest ih =>
    intro a k hk
    cases k with
    | zero => simp [widthsFrom, prefixWidth]
    | succ k =>
      simp only [widthsFrom, List.getD_cons_succ]
      rw [ih _ k (by simpa using hk)]
      simp only [prefixWidth, List.take_succ_cons, List.map_cons, List.sum_cons]
      ring

theorem widths_getD (fs : List Fragment) (k : ℕ) (hk : k ≤ fs.length) :
    (widths fs).getD k 0 = prefixWidth fs k := by
  simpa using widthsFrom_getD fs 0 k hk

theorem prefixWidth_add (fs : List Fragment) (i d : ℕ) :
    prefixWidth fs (i + d)
      = prefixWidth fs i
        + (((fs.drop i).take d).map (fun f => f.width + f.whitespace_width)).sum := by
  unfold prefixWidth
  rw [List.take_add, List.map_append, List.sum_append]

theorem prefixWidth_mono (fs : List Fragment) {i j : ℕ} (h : i ≤ j) :
    prefixWidth fs i ≤ prefixWidth fs j := by
  have hd := prefixWidth_add fs i (j - i)
  have : i + (j - i) = j := by omega
  rw [this] at hd
  omega

theorem prefixWidth_succ (fs : List Fragment) (k : ℕ) (hk : k < fs.length) :
    prefixWidth fs (k + 1)
      = prefixWidth fs k
        + ((fs.getD k default).width + (fs.getD k default).whitespace_width) := by
  have hd := prefixWidth_add fs k 1
  rw [hd]
  have hdrop : fs.drop k = fs.getD k default :: fs.drop (k + 1) := by
    rw [List.getD_eq_getElem fs default hk]
    exact List.drop_eq_getElem_cons hk
  rw [hdrop]
  simp

/-! ### The reference column-minima solver -/

theorem minimizeRow_zero (f : ℕ → ℚ) : minimizeRow f 0 = (0, f 0) := rfl

theorem minimizeRow_succ (f : ℕ → ℚ) (j : ℕ) :
    minimizeRow f (j + 1)
      = if f j < (minimizeRow f j).2 then (j, f j) else minimizeRow f j := by
  unfold minimizeRow
  rw [List.range_succ, List.foldl_append]
  rfl

theorem minimizeRow_val (f : ℕ → ℚ) : ∀ j, (minimizeRow f j).2 = f (minimizeRow f j).1 := by
  intro j
  induction j with
  | zero => rfl
  | succ j ih =>
    rw [minimizeRow_succ]
    split
    · rfl
    · exact ih

theorem minimizeRow_lt (f : ℕ → ℚ) : ∀ j, 1 ≤ j → (minimizeRow f j).1 < j := by
  intro j
  induction j with
  | zero => omega
  | succ j ih =>
    intro _
    rw [minimizeRow_succ]
    split
    · simp
    · rcases Nat.eq_zero_or_pos j with hj | hj
      · subst hj
        simp [minimizeRow_zero]
      · exact Nat.lt_succ_of_lt (ih hj)

theorem minimizeRow_le (f : ℕ → ℚ) : ∀ j i, i < j → (minimizeRow f j).2 ≤ f i := by
  intro j
  induction j with
  | zero => omega
  | succ j ih =>
    intro i hi
    rw [minimizeRow_succ]
    rcases Nat.lt_succ_iff_lt_or_eq.mp hi with hij | hij
    · by_cases h : f j < (minimizeRow f j).2
      · rw [if_pos h]
        exact le_of_lt (lt_of_lt_of_le h (ih i hij))
      · rw [if_neg h]
        exact ih i hij
    · subst hij
      by_cases h : f i < (minimizeRow f i).2
      · rw [if_pos h]
      · rw [if_neg h]
        exact le_of_not_lt h

theorem ocmExtend_succ (c : List (ℕ × ℚ) → ℕ → ℕ → ℚ) (cols : ℕ) (m : List (ℕ × ℚ)) :
    ocmExtend c (cols + 1) m
      = ocmExtend c cols
          (m ++ [minimizeRow (fun i => c m i m.length) m.length]) := rfl

theorem ocmExtend_length (c : List (ℕ × ℚ) → ℕ → ℕ → ℚ) :
    ∀ (cols : ℕ) (m : List (ℕ × ℚ)), (ocmExtend c cols m).length = m.length + cols := by
  intro cols
  induction cols with
  | zero => intro m; rfl
  | succ cols ih =>
    intro m
    rw [ocmExtend_succ, ih]
    simp
    omega

theorem ocmExtend_getD_lt (c : List (ℕ × ℚ) → ℕ → ℕ → ℚ) :
    ∀ (cols : ℕ) (m : List (ℕ × ℚ)) (k : ℕ), k < m.length →
      (ocmExtend c cols m).getD k (0, 0) = m.getD k (0, 0) := by
  intro cols
  induction cols with
  | zero => intro m k _; rfl
  | succ cols ih =>
    intro m k hk
    rw [ocmExtend_succ, ih _ _ (by simp; omega)]
    exact List.getD_append _ _ _ _ hk

theorem ocmExtend_take (c : List (ℕ × ℚ) → ℕ → ℕ → ℚ) :
    ∀ (cols : ℕ) (m : List (ℕ × ℚ)) (j : ℕ), j ≤ m.length →
      (ocmExtend c cols m).take j = m.take j := by
  intro cols
  induction cols with
  | zero => intro m j _; rfl
  | succ cols ih =>
    intro m j hj
    rw [ocmExtend_succ, ih _ _ (by simp; omega)]
    exact List.take_append_of_le_length hj

theorem ocmExtend_entry (c : List (ℕ × ℚ) → ℕ → ℕ → ℚ) :
    ∀ (cols : ℕ) (m : List (ℕ × ℚ)) (j : ℕ), m.length ≤ j → j < m.length + cols →
      (ocmExtend c cols m).getD j (0, 0)
        = minimizeRow (fun i => c ((ocmExtend c cols m).take j) i j) j := by
  intro cols
  induction cols with
  | zero => intro m j h1 h2; omega
  | succ cols ih =>
    intro m j h1 h2
    rcases Nat.eq_or_lt_of_le h1 with hj | hj
    · subst hj
      rw [ocmExtend_succ]
      have hlen : m.length < (m ++ [minimizeRow (fun i => c m i m.length) m.length]).length := by
        simp
      rw [ocmExtend_getD_lt c cols _ _ hlen]
      rw [List.getD_append_right _ _ _ _ (le_refl _)]
      rw [ocmExtend_take c cols _ _ (by simp)]
      rw [List.take_append_of_le_length (le_refl _), List.take_length]
      simp
    · rw [ocmExtend_succ, ih _ j (by simp; omega) (by simp; omega)]

/-! ### The line-number walk -/

theorem lineNumberGo_zero (minima : List (ℕ × ℚ)) (fuel : ℕ) :
    lineNumberGo minima fuel 0 = some 0 := by
  cases fuel <;> rfl

theorem lineNumberGo_mono (minima : List (ℕ × ℚ)) :
    ∀ fuel fuel' k v, fuel ≤ fuel' → lineNumberGo minima fuel k = some v →
      lineNumberGo minima fuel' k = some v := by
  intro fuel
  induction fuel with
  | zero =>
    intro fuel' k v _ h
    cases k with
    | zero => simpa [lineNumberGo_zero] using h
    | succ k => simp [lineNumberGo] at h
  | succ fuel ih =>
    intro fuel' k v hle h
    cases k with
    | zero => simpa [lineNumberGo_zero] using h
    | succ k =>
      obtain ⟨fuel'', rfl⟩ : ∃ g, fuel' = g + 1 := ⟨fuel' - 1, by omega⟩
      rw [lineNumberGo] at h ⊢
      obtain ⟨w, hw, rfl⟩ := Option.map_eq_some'.mp h
      rw [ih fuel'' _ _ (by omega) hw]
      rfl

theorem lineNumberGo_terminates (minima : List (ℕ × ℚ))
    (hpred : ∀ m, 0 < m → (minima.getD m (0, 0)).1 < m) :
    ∀ fuel k, k ≤ fuel →
      ∃ v, lineNumberGo minima fuel k = some v ∧ v ≤ k ∧
        lineNumberGo minima v k = some v := by
  intro fuel
  induction fuel with
  | zero =>
    intro k hk
    have hk0 : k = 0 := by omega
    subst hk0
    exact ⟨0, lineNumberGo_zero _ _, le_refl _, lineNumberGo_zero _ _⟩
  | succ fuel ih =>
    intro k hk
    cases k with
    | zero => exact ⟨0, lineNumberGo_zero _ _, Nat.zero_le _, lineNumberGo_zero _ _⟩
    | succ k =>
      set p := (minima.getD (k + 1) (0, 0)).1 with hp
      have hpk : p < k + 1 := hpred (k + 1) (Nat.succ_pos k)
      obtain ⟨v, hv, hvle, hvmin⟩ := ih p (by omega)
      refine ⟨v + 1, ?_, by omega, ?_⟩
      · rw [lineNumberGo, ← hp, hv]
        rfl
      · rw [lineNumberGo, ← hp, hvmin]
        rfl

theorem lineNumber_eq_of_go (minima : List (ℕ × ℚ)) (k v : ℕ)
    (h : lineNumberGo minima k k = some v) : lineNumber minima k = v := by
  rw [lineNumber, h]
  rfl

theorem lineNumberGo_take (minima : List (ℕ × ℚ)) (j : ℕ)
    (hpred : ∀ m, 0 < m → (minima.getD m (0, 0)).1 < m) :
    ∀ fuel k, k < j →
      lineNumberGo (minima.take j) fuel k = lineNumberGo minima fuel k := by
  intro fuel
  induction fuel with
  | zero =>
    intro k _
    cases k <;> rfl
  | succ fuel ih =>
    intro k hk
    cases k with
    | zero => rfl
    | succ k =>
      rw [lineNumberGo, lineNumberGo]
      by_cases hkl : k + 1 < minima.length
      · rw [getD_take _ _ _ hk]
        rw [ih _ (lt_trans (hpred (k + 1) (Nat.succ_pos k)) hk)]
      · have h1 : minima.getD (k + 1) (0, 0) = (0, 0) :=
          List.getD_eq_default _ _ (by omega)
        have h2 : (minima.take j).getD (k + 1) (0, 0) = (0, 0) :=
          List.getD_eq_default _ _ (by simp; omega)
        rw [h1, h2]
        simp [lineNumberGo_zero]

theorem lineNumber_take (minima : List (ℕ × ℚ)) (j k : ℕ)
    (hpred : ∀ m, 0 < m → (minima.getD m (0, 0)).1 < m) (hk : k < j) :
    lineNumber (minima.take j) k = lineNumber minima k := by
  rw [lineNumber, lineNumber, lineNumberGo_take minima j hpred k k hk]

/-! ### The minima table of `wrap_optimal_fit` -/

theorem wrapMinima_eq (fragments : List Fragment) (lw : ℕ → ℕ) :
    wrapMinima fragments lw
      = ocmExtend (cost fragments (widths fragments) lw) fragments.length [(0, 0)] := by
  rw [wrapMinima, online_column_minima, widths_length]
  rfl

theorem wrapMinima_length (fragments : List Fragment) (lw : ℕ → ℕ) :
    (wrapMinima fragments lw).length = fragments.length + 1 := by
  rw [wrapMinima_eq, ocmExtend_length]
  simp [Nat.add_comm]

theorem wrapMinima_zero (fragments : List Fragment) (lw : ℕ → ℕ) :
    (wrapMinima fragments lw).getD 0 (0, 0) = (0, 0) := by
  rw [wrapMinima_eq, ocmExtend_getD_lt _ _ _ _ (by simp)]
  rfl

theorem wrapMinima_pred (fragments : List Fragment) (lw : ℕ → ℕ) :
    ∀ k, 0 < k → ((wrapMinima fragments lw).getD k (0, 0)).1 < k := by
  intro k hk
  by_cases hkl : k ≤ fragments.length
  · rw [wrapMinima_eq, ocmExtend_entry _ _ _ _ (by simpa using hk) (by simp; omega)]
    exact minimizeRow_lt _ k hk
  · rw [List.getD_eq_default _ _ (by rw [wrapMinima_length]; omega)]
    exact hk

theorem wrapMinima_entry (fragments : List Fragment) (lw : ℕ → ℕ) (j : ℕ)
    (h1 : 1 ≤ j) (h2 : j ≤ fragments.length) :
    (wrapMinima fragments lw).getD j (0, 0)
      = minimizeRow
          (fun i => cost fragments (widths fragments) lw ((wrapMinima fragments lw).take j) i j)
          j := by
  conv_lhs => rw [wrapMinima_eq]
  rw [ocmExtend_entry _ _ _ _ (by simpa using h1) (by simp; omega)]
  rw [← wrapMinima_eq]

theorem cost_take (fragments : List Fragment) (lw : ℕ → ℕ) (m : List (ℕ × ℚ)) (i j : ℕ)
    (hpred : ∀ k, 0 < k → (m.getD k (0, 0)).1 < k) (hij : i < j) :
    cost fragments (widths fragments) lw (m.take j) i j
      = cost fragments (widths fragments) lw m i j := by
  unfold cost
  rw [lineNumber_take m j i hpred hij, getD_take _ _ _ hij]

theorem wrapMinima_spec (fragments : List Fragment) (lw : ℕ → ℕ) (j : ℕ)
    (h1 : 1 ≤ j) (h2 : j ≤ fragments.length) :
    (((wrapMinima fragments lw).getD j (0, 0)).1 < j)
    ∧ ((wrapMinima fragments lw).getD j (0, 0)).2
        = cost fragments (widths fragments) lw (wrapMinima fragments lw)
            ((wrapMinima fragments lw).getD j (0, 0)).1 j
    ∧ ∀ i, i < j →
        ((wrapMinima fragments lw).getD j (0, 0)).2
          ≤ cost fragments (widths fragments) lw (wrapMinima fragments lw) i j := by
  have hentry := wrapMinima_entry fragments lw j h1 h2
  have hpred := wrapMinima_pred fragments lw
  constructor
  · rw [hentry]
    exact minimizeRow_lt _ j h1
  constructor
  · conv_lhs => rw [hentry]
    rw [minimizeRow_val]
    rw [cost_take fragments lw _ _ j hpred]
    · rw [← hentry]
    · rw [← hentry]
      exact wrapMinima_pred fragments lw j h1 -- predecessor of entry j is < j
  · intro i hi
    rw [hentry]
    have hle := minimizeRow_le
      (fun i => cost fragments (widths fragments) lw ((wrapMinima fragments lw).take j) i j)
      j i hi
    simp only [] at hle
    rwa [cost_take fragments lw _ i j hpred hi] at hle

/-! ### Cost decomposition -/

theorem line_penalty_min_add (i j : ℕ) (fragments : List Fragment)
    (lwid tw : ℕ) (mc : ℚ) :
    line_penalty i j fragments lwid tw mc = mc + line_penalty i j fragments lwid tw 0 := by
  unfold line_penalty
  split_ifs <;> ring

theorem cost_decomp (fragments : List Fragment) (lw : ℕ → ℕ) (m : List (ℕ × ℚ)) (i j : ℕ)
    (hi : i ≤ fragments.length) (hj : j ≤ fragments.length) :
    cost fragments (widths fragments) lw m i j
      = (m.getD i (0, 0)).2
        + lineTerm fragments (target_width lw (lineNumber m i)) i j := by
  unfold cost lineTerm refLineWidth
  rw [widths_getD _ _ hj, widths_getD _ _ hi]
  exact line_penalty_min_add _ _ _ _ _ _

theorem target_width_const (lw : ℕ → ℕ) (c : ℕ) (hc : ∀ k, lw k = c) (k : ℕ) :
    target_width lw k = max 1 c := by
  rw [target_width, hc]

theorem partCostFrom_const (fragments : List Fragment) (lw : ℕ → ℕ) (c : ℕ)
    (hc : ∀ k, lw k = c) :
    ∀ (spans : List (ℕ × ℕ)) (k : ℕ),
      partCostFrom fragments lw k spans
        = (spans.map (fun s => lineTerm fragments (max 1 c) s.1 s.2)).sum := by
  intro spans
  induction spans with
  | nil => intro k; rfl
  | cons s rest ih =>
    intro k
    rw [partCostFrom, ih (k + 1), target_width_const lw c hc]
    simp

/-! ### The brute-force partition space -/

theorem partsF_zero (fuel : ℕ) : partsF fuel 0 = [[]] := by
  cases fuel <;> rfl

theorem partsF_succ (fuel j : ℕ) :
    partsF (fuel + 1) (j + 1)
      = (List.range (j + 1)).flatMap
          fun i => (partsF fuel i).map fun p => p ++ [(i, j + 1)] := rfl

theorem partsF_mono :
    ∀ fuel₁ fuel₂ j, j ≤ fuel₁ → j ≤ fuel₂ → partsF fuel₁ j = partsF fuel₂ j := by
  intro fuel₁
  induction fuel₁ with
  | zero =>
    intro fuel₂ j h1 _
    have hj : j = 0 := by omega
    subst hj
    rw [partsF_zero, partsF_zero]
  | succ fuel ih =>
    intro fuel₂ j h1 h2
    cases j with
    | zero => rw [partsF_zero, partsF_zero]
    | succ j =>
      obtain ⟨g, rfl⟩ : ∃ g, fuel₂ = g + 1 := ⟨fuel₂ - 1, by omega⟩
      rw [partsF_succ, partsF_succ]
      apply List.flatMap_congr
      intro i hi
      rw [List.mem_range] at hi
      rw [ih g i (by omega) (by omega)]

theorem mem_parts_last (j : ℕ) (p : List (ℕ × ℕ)) :
    p ∈ parts (j + 1)
      ↔ ∃ i, i < j + 1 ∧ ∃ q, q ∈ parts i ∧ p = q ++ [(i, j + 1)] := by
  rw [parts, partsF_succ]
  simp only [List.mem_flatMap, List.mem_map, List.mem_range]
  constructor
  · rintro ⟨i, hi, q, hq, rfl⟩
    exact ⟨i, hi, q, by rwa [parts, partsF_mono i j i (le_refl _) (by omega)], rfl⟩
  · rintro ⟨i, hi, q, hq, rfl⟩
    refine ⟨i, hi, q, ?_, rfl⟩
    rw [parts] at hq
    rwa [partsF_mono i j i (le_refl _) (by omega)] at hq

/-! ### The backtracking extraction -/

theorem extractSpansGo_base (m : List (ℕ × ℚ)) (fuel pos : ℕ)
    (h : (m.getD pos (0, 0)).1 = 0) :
    extractSpansGo m fuel pos = some [((m.getD pos (0, 0)).1, pos)] := by
  cases fuel with
  | zero => rw [extractSpansGo, if_pos h]
  | succ fuel => rw [extractSpansGo, if_pos h]

theorem extractSpansGo_step (m : List (ℕ × ℚ)) (fuel pos : ℕ)
    (h : (m.getD pos (0, 0)).1 ≠ 0) :
    extractSpansGo m (fuel + 1) pos
      = (extractSpansGo m fuel (m.getD pos (0, 0)).1).map
          (fun rest => ((m.getD pos (0, 0)).1, pos) :: rest) := by
  rw [extractSpansGo, if_neg h]

theorem extract_mem_parts (m : List (ℕ × ℚ))
    (hpred : ∀ k, 0 < k → (m.getD k (0, 0)).1 < k) :
    ∀ fuel pos, 1 ≤ pos → pos ≤ fuel →
      ∃ spans, extractSpansGo m fuel pos = some spans ∧ spans.reverse ∈ parts pos := by
  intro fuel
  induction fuel with
  | zero => intro pos h1 h2; omega
  | succ fuel ih =>
    intro pos h1 _
    obtain ⟨q, rfl⟩ : ∃ q, pos = q + 1 := ⟨pos - 1, by omega⟩
    by_cases h0 : (m.getD (q + 1) (0, 0)).1 = 0
    · refine ⟨[((m.getD (q + 1) (0, 0)).1, q + 1)], extractSpansGo_base m _ _ h0, ?_⟩
      rw [h0, List.reverse_singleton, mem_parts_last]
      exact ⟨0, by omega, [], by rw [parts, partsF_zero]; simp, rfl⟩
    · have hplt : (m.getD (q + 1) (0, 0)).1 < q + 1 := hpred (q + 1) (by omega)
      obtain ⟨rest, hrest, hmem⟩ := ih (m.getD (q + 1) (0, 0)).1 (by omega) (by omega)
      refine ⟨((m.getD (q + 1) (0, 0)).1, q + 1) :: rest, ?_, ?_⟩
      · rw [extractSpansGo_step m _ _ h0, hrest]
        rfl
      · rw [List.reverse_cons, mem_parts_last]
        exact ⟨(m.getD (q + 1) (0, 0)).1, hplt, rest.reverse, hmem, rfl⟩

theorem extract_join (fragments : List Fragment) (m : List (ℕ × ℚ))
    (h0 : (m.getD 0 (0, 0)).1 = 0)
    (hpred : ∀ k, 0 < k → (m.getD k (0, 0)).1 < k) :
    ∀ fuel pos, pos ≤ fuel →
      ∃ spans, extractSpansGo m fuel pos = some spans ∧
        ((spans.reverse.map (sliceOf fragments)).flatten = fragments.take pos) := by
  intro fuel
  induction fuel with
  | zero =>
    intro pos hpos
    have : pos = 0 := by omega
    subst this
    refine ⟨[((m.getD 0 (0, 0)).1, 0)], extractSpansGo_base m _ _ h0, ?_⟩
    rw [h0]
    simp [sliceOf]
  | succ fuel ih =>
    intro pos hpos
    by_cases hz : (m.getD pos (0, 0)).1 = 0
    · refine ⟨[((m.getD pos (0, 0)).1, pos)], extractSpansGo_base m _ _ hz, ?_⟩
      rw [hz]
      simp [sliceOf]
    · have hpos1 : 0 < pos := by
        by_contra hc
        have : pos = 0 := by omega
        subst this
        exact hz h0
      have hplt : (m.getD pos (0, 0)).1 < pos := hpred pos hpos1
      obtain ⟨rest, hrest, hjoin⟩ := ih (m.getD pos (0, 0)).1 (by omega)
      refine ⟨((m.getD pos (0, 0)).1, pos) :: rest, ?_, ?_⟩
      · rw [extractSpansGo_step m _ _ hz, hrest]
        rfl
      · rw [List.reverse_cons, List.map_append, List.flatten_append, hjoin]
        have hsplit : pos = (m.getD pos (0, 0)).1 + (pos - (m.getD pos (0, 0)).1) := by omega
        conv_rhs => rw [hsplit]
        rw [List.take_add]
        simp [sliceOf]

theorem extract_chainCost (fragments : List Fragment) (lw : ℕ → ℕ) (c : ℕ)
    (hc : ∀ k, lw k = c) :
    ∀ fuel pos, 1 ≤ pos → pos ≤ fragments.length → pos ≤ fuel →
      ∃ spans, extractSpansGo (wrapMinima fragments lw) fuel pos = some spans ∧
        (spans.map (fun s => lineTerm fragments (max 1 c) s.1 s.2)).sum
          = ((wrapMinima fragments lw).getD pos (0, 0)).2 := by
  intro fuel
  induction fuel with
  | zero => intro pos h1 _ h3; omega
  | succ fuel ih =>
    intro pos h1 h2 _
    have hspec := wrapMinima_spec fragments lw pos h1 h2
    have hplt : ((wrapMinima fragments lw).getD pos (0, 0)).1 < pos := hspec.1
    have hval := hspec.2.1
    rw [cost_decomp fragments lw _ _ pos (by omega) h2,
        target_width_const lw c hc] at hval
    by_cases hz : ((wrapMinima fragments lw).getD pos (0, 0)).1 = 0
    · refine ⟨[(((wrapMinima fragments lw).getD pos (0, 0)).1, pos)],
        extractSpansGo_base _ _ _ hz, ?_⟩
      rw [hval, hz, wrapMinima_zero]
      simp
    · obtain ⟨rest, hrest, hsum⟩ :=
        ih ((wrapMinima fragments lw).getD pos (0, 0)).1 (by omega) (by omega) (by omega)
      refine ⟨(((wrapMinima fragments lw).getD pos (0, 0)).1, pos) :: rest, ?_, ?_⟩
      · rw [extractSpansGo_step _ _ _ hz, hrest]
        rfl
      · rw [List.map_cons, List.sum_cons, hsum, hval]
        ring

theorem dp_lower (fragments : List Fragment) (lw : ℕ → ℕ) (c : ℕ) (hc : ∀ k, lw k = c) :
    ∀ pos, pos ≤ fragments.length →
      ∀ p ∈ parts pos,
        ((wrapMinima fragments lw).getD pos (0, 0)).2
          ≤ (p.map (fun s => lineTerm fragments (max 1 c) s.1 s.2)).sum := by
  intro pos
  induction pos using Nat.strong_induction_on with
  | _ pos ih =>
    intro hpos p hp
    cases pos with
    | zero =>
      rw [parts, partsF_zero] at hp
      simp only [List.mem_singleton] at hp
      subst hp
      rw [wrapMinima_zero]
      simp
    | succ q =>
      rw [mem_parts_last] at hp
      obtain ⟨i, hi, r, hr, rfl⟩ := hp
      have hspec := wrapMinima_spec fragments lw (q + 1) (by omega) hpos
      have hle := hspec.2.2 i hi
      rw [cost_decomp fragments lw _ i (q + 1) (by omega) hpos,
          target_width_const lw c hc] at hle
      have ihr := ih i hi (by omega) r hr
      rw [List.map_append, List.sum_append]
      simp only [List.map_cons, List.map_nil, List.sum_cons, List.sum_nil]
      linarith

/-- C1 counterexample helper statement is stated on `wrapSpans`; this lemma
ties `wrapSpans` to a successful extraction. -/
theorem wrapSpans_of_extract (fragments : List Fragment) (lw : ℕ → ℕ)
    (spans : List (ℕ × ℕ))
    (h : extractSpansGo (wrapMinima fragments lw) fragments.length fragments.length
          = some spans) :
    wrapSpans fragments lw = spans.reverse := by
  rw [wrapSpans, h]
  rfl

/-- C1 (amended): for every fragment sequence and every *constant*
target-width function, the returned line partition is one of the `2^(n-1)`
break-point combinations and its total cost per the §4.3 line-cost formula
is minimal among all of them.  (For varying target-width functions the
claim fails; see the counterexample.) -/
theorem wrap_optimal_fit_const_optimal (fragments : List Fragment) (lw : ℕ → ℕ) (c : ℕ)
    (hc : ∀ k, lw k = c) (hne : fragments ≠ []) :
    wrapSpans fragments lw ∈ parts fragments.length
    ∧ ∀ p ∈ parts fragments.length,
        partCost fragments lw (wrapSpans fragments lw) ≤ partCost fragments lw p := by
  have hn1 : 1 ≤ fragments.length := List.length_pos.mpr hne
  obtain ⟨spans, hsome, hmem⟩ :=
    extract_mem_parts (wrapMinima fragments lw) (wrapMinima_pred fragments lw)
      fragments.length fragments.length hn1 (le_refl _)
  obtain ⟨spans', hsome', hsum⟩ :=
    extract_chainCost fragments lw c hc fragments.length fragments.length hn1
      (le_refl _) (le_refl _)
  rw [hsome] at hsome'
  obtain rfl : spans = spans' := by injection hsome'
  have hws := wrapSpans_of_extract fragments lw spans hsome
  constructor
  · rw [hws]
    exact hmem
  · intro p hp
    rw [hws, partCost, partCostFrom_const fragments lw c hc, partCost,
        partCostFrom_const fragments lw c hc]
    have hrev : (spans.reverse.map (fun s => lineTerm fragments (max 1 c) s.1 s.2)).sum
        = (spans.map (fun s => lineTerm fragments (max 1 c) s.1 s.2)).sum := by
      rw [List.map_reverse, List.sum_reverse]
    rw [hrev, hsum]
    exact dp_lower fragments lw c hc fragments.length (le_refl _) p hp

/-- C2: for every non-empty fragment sequence and every target-width
function, concatenating the returned line slices reproduces the input
fragment sequence exactly — no fragment dropped, duplicated or reordered. -/
theorem wrap_optimal_fit_join (fragments : List Fragment) (lw : ℕ → ℕ)
    (hne : fragments ≠ []) :
    (wrap_optimal_fit fragments lw).flatten = fragments := by
  obtain ⟨spans, hsome, hjoin⟩ :=
    extract_join fragments (wrapMinima fragments lw)
      (by rw [wrapMinima_zero])
      (wrapMinima_pred fragments lw) fragments.length fragments.length (le_refl _)
  rw [wrap_optimal_fit, wrapSpans, hsome]
  simp only [Option.getD_some]
  rw [hjoin, List.take_length]

/-- C2 witness: concrete instance of the coverage invariant. -/
theorem wrap_optimal_fit_join_witness :
    (wrap_optimal_fit [⟨3, 1, 0⟩, ⟨4, 0, 0⟩] (fun _ => 5)).flatten
      = [⟨3, 1, 0⟩, ⟨4, 0, 0⟩] :=
  wrap_optimal_fit_join [⟨3, 1, 0⟩, ⟨4, 0, 0⟩] (fun _ => 5) (by decide)

/-- C4 counterexample: for the empty fragment sequence the function does
*not* return an empty sequence of lines (the backtracking loop is a
do-while whose body runs once before `pos == 0` is tested). -/
theorem wrap_optimal_fit_empty_ne_nil :
    wrap_optimal_fit [] (fun _ => 10) ≠ [] := by
  decide

/-- C4 (amended): for the empty fragment sequence the result is a single
line holding the empty slice, because the loop body executes once before
the `pos == 0` check. -/
theorem wrap_optimal_fit_empty (lw : ℕ → ℕ) :
    wrap_optimal_fit [] lw = [[]] := rfl

theorem line_penalty_overflow (i j : ℕ) (fragments : List Fragment)
    (lwid tw : ℕ) (mc : ℚ) (h : tw < lwid)
    (hpen : (fragments.getD (j - 1) default).penalty_width = 0) :
    line_penalty i j fragments lwid tw mc
      = mc + NLINE_PENALTY + ((lwid - tw : ℕ) : ℚ) * OVERFLOW_PENALTY := by
  unfold line_penalty
  split_ifs <;> first | ring1 | (exfalso; omega)

theorem minimizeRow_one (f : ℕ → ℚ) : minimizeRow f 1 = (0, f 0) := by
  have h := minimizeRow_succ f 0
  rw [minimizeRow_zero, if_neg (lt_irrefl _)] at h
  exact h

theorem ocmExtend_one (c : List (ℕ × ℚ) → ℕ → ℕ → ℚ) (m : List (ℕ × ℚ)) :
    ocmExtend c 1 m = m ++ [minimizeRow (fun i => c m i m.length) m.length] :=
  (ocmExtend_succ c 0 m).trans rfl

/-- C6: a single-fragment sequence always wraps to exactly one line holding
that fragment, regardless of the target width; when the fragment (with its
break-marker width zero) overflows the clamped target width, the recorded
total cost carries the linear overflow term
`(fragment width - target width) * OVERFLOW_PENALTY` — the call still
returns normally. -/
theorem wrap_optimal_fit_single (f : Fragment) (lw : ℕ → ℕ) :
    wrap_optimal_fit [f] lw = [[f]]
    ∧ (f.penalty_width = 0 → target_width lw 0 < f.width →
        ((wrapMinima [f] lw).getD 1 (0, 0)).2
          = NLINE_PENALTY
            + ((f.width - target_width lw 0 : ℕ) : ℚ) * OVERFLOW_PENALTY) := by
  have hM : wrapMinima [f] lw
      = [(0, 0), (0, cost [f] (widths [f]) lw [(0, 0)] 0 1)] := by
    rw [wrapMinima_eq]
    have e1 := ocmExtend_one (cost [f] (widths [f]) lw) [(0, 0)]
    simp only [List.length_singleton] at e1
    rw [minimizeRow_one] at e1
    exact e1
  constructor
  · simp only [wrap_optimal_fit, wrapSpans, hM, List.length_singleton]
    rw [extractSpansGo_base [(0, 0), (0, cost [f] (widths [f]) lw [(0, 0)] 0 1)] 1 1 rfl]
    simp [sliceOf]
  · intro hpen hov
    rw [hM]
    show cost [f] (widths [f]) lw [(0, 0)] 0 1 = _
    rw [cost_decomp [f] lw [(0, 0)] 0 1 (by simp) (by simp)]
    have hrlw : refLineWidth [f] 0 1 = f.width := by
      unfold refLineWidth prefixWidth
      simp [hpen]
    have hln : lineNumber [((0 : ℕ), (0 : ℚ))] 0 = 0 := rfl
    rw [lineTerm, hrlw, hln,
        line_penalty_overflow 0 1 [f] f.width (target_width lw 0) 0 hov
          (by simpa using hpen)]
    show (0 : ℚ) + _ = _
    ring

/-- C6 witness: the fragment `⟨7,0,0⟩` at constant target width 3 gives a
single overflowing line with cost `1000 + 4 * OVERFLOW_PENALTY`. -/
theorem wrap_optimal_fit_single_witness :
    wrap_optimal_fit [⟨7, 0, 0⟩] (fun _ => 3) = [[⟨7, 0, 0⟩]]
    ∧ ((wrapMinima [⟨7, 0, 0⟩] (fun _ => 3)).getD 1 (0, 0)).2
        = NLINE_PENALTY + ((4 : ℕ) : ℚ) * OVERFLOW_PENALTY := by
  obtain ⟨h1, h2⟩ := wrap_optimal_fit_single ⟨7, 0, 0⟩ (fun _ => 3)
  refine ⟨h1, ?_⟩
  have h3 := h2 rfl (by decide)
  simpa [target_width] using h3



/-- C3: for every `i < j`, `line_penalty` computes exactly the additive
formula of §4.3. -/
theorem line_penalty_formula (i j : ℕ) (fragments : List Fragment)
    (line_width target_width : ℕ) (minimum_cost : ℚ) (hij : i < j) :
    line_penalty i j fragments line_width target_width minimum_cost
      = line_penalty_spec i j fragments line_width target_width minimum_cost := by
  unfold line_penalty line_penalty_spec SHORT_LINE_FRACTION
  split_ifs <;> first | ring1 | (exfalso; omega)

/-- C3 witness: concrete evaluation point for the formula equality. -/
theorem line_penalty_formula_witness :
    line_penalty 0 1 [⟨3, 1, 0⟩] 3 5 0 = line_penalty_spec 0 1 [⟨3, 1, 0⟩] 3 5 0 :=
  line_penalty_formula 0 1 [⟨3, 1, 0⟩] 3 5 0 (by decide)





/-- C5 counterexample: at `fragments = [⟨2,1,0⟩, ⟨2,0,0⟩]`, `(i, j) = (0, 1)`
— not the last line — the cost closure's line width is 2 (trailing
whitespace of fragment 0 excluded) while the claim's formula gives 3
(excluded only when `j = n`): the "if and only if" is false. -/
theorem cost_line_width_cex :
    refLineWidth exC5 0 1 ≠ line_width_claim exC5 0 1 := by
  decide

/-- C5 (amended): for every `i < j ≤ n`, the cost closure evaluates
`line_penalty` at line width = total width of `fragments[i..j]` plus the
closing fragment's break-marker width minus the closing fragment's
trailing whitespace — the trailing whitespace of the line's last fragment
is excluded for *every* line, not only for the paragraph's last one. -/
theorem cost_line_width (fragments : List Fragment) (lw : ℕ → ℕ)
    (m : List (ℕ × ℚ)) (i j : ℕ) (hij : i < j) (hj : j ≤ fragments.length) :
    cost fragments (widths fragments) lw m i j
      = line_penalty i j fragments
          ((((fragments.drop i).take (j - i)).map
              (fun f => f.width + f.whitespace_width)).sum
            + (fragments.getD (j - 1) default).penalty_width
            - (fragments.getD (j - 1) default).whitespace_width)
          (target_width lw (lineNumber m i)) ((m.getD i (0, 0)).2) := by
  have hA : refLineWidth fragments i j
      = (((fragments.drop i).take (j - i)).map
            (fun f => f.width + f.whitespace_width)).sum
          + (fragments.getD (j - 1) default).penalty_width
          - (fragments.getD (j - 1) default).whitespace_width := by
    have hsum := prefixWidth_add fragments i (j - i)
    have hij' : i + (j - i) = j := by omega
    rw [hij'] at hsum
    have hmono := prefixWidth_mono fragments (show i ≤ j - 1 by omega)
    have hsucc := prefixWidth_succ fragments (j - 1) (by omega)
    have hj1 : j - 1 + 1 = j := by omega
    rw [hj1] at hsucc
    unfold refLineWidth
    omega
  rw [cost_decomp fragments lw m i j (by omega) hj, lineTerm, hA,
      line_penalty_min_add i j fragments _ _ ((m.getD i (0, 0)).2)]

/-- C5 witness: the amended line-width relation at a concrete evaluation. -/
theorem cost_line_width_witness :
    cost exC5 (widths exC5) (fun _ => 5) [(0, 0)] 0 1
      = line_penalty 0 1 exC5
          ((((exC5.drop 0).take (1 - 0)).map
              (fun f => f.width + f.whitespace_width)).sum
            + (exC5.getD (1 - 1) default).penalty_width
            - (exC5.getD (1 - 1) default).whitespace_width)
          (target_width (fun _ => 5) (lineNumber [(0, 0)] 0))
          (([((0 : ℕ), (0 : ℚ))].getD 0 (0, 0)).2) :=
  cost_line_width exC5 (fun _ => 5) [(0, 0)] 0 1 (by decide) (by decide)

/-- C8: the target width used in every cost evaluation is clamped to at
least 1 — the gap division is never by zero — and the closure's value is
exactly `line_penalty` at that clamped width: malformed (zero) target
widths are defused, never signalled, so the wrap is total. -/
theorem cost_target_width_clamped (fragments : List Fragment) (w : List ℕ) (lw : ℕ → ℕ)
    (m : List (ℕ × ℚ)) (i j : ℕ) :
    1 ≤ target_width lw (lineNumber m i)
    ∧ cost fragments w lw m i j
        = line_penalty i j fragments
            (w.getD j 0 - w.getD i 0 - (fragments.getD (j - 1) default).whitespace_width
              + (fragments.getD (j - 1) default).penalty_width)
            (target_width lw (lineNumber m i)) ((m.getD i (0, 0)).2) :=
  ⟨le_max_left 1 _, rfl⟩

/-- C9: if every entry `k > 0` of the minima table has predecessor strictly
less than `k` and entry 0 has predecessor 0, then the line-number walk from
any in-range `k` terminates: fuel `k` suffices, the walk takes exactly
`lineNumber minima k ≤ k` recursive steps (that much fuel already
suffices), and the backtracking loop of `wrap_optimal_fit` (its
fuel-indexed model) returns `some` for every input. -/
theorem lineNumbers_terminate (minima : List (ℕ × ℚ)) (k : ℕ)
    (h0 : (minima.getD 0 (0, 0)).1 = 0)
    (hpred : ∀ m, m < minima.length → 0 < m → (minima.getD m (0, 0)).1 < m)
    (hk : k < minima.length) :
    (lineNumberGo minima k k = some (lineNumber minima k)
      ∧ lineNumber minima k ≤ k
      ∧ lineNumberGo minima (lineNumber minima k) k = some (lineNumber minima k))
    ∧ (extractSpansGo minima k k).isSome
    ∧ ∀ (fragments : List Fragment) (lw : ℕ → ℕ),
        (extractSpansGo (wrapMinima fragments lw)
          fragments.length fragments.length).isSome := by
  have hpred' : ∀ m, 0 < m → (minima.getD m (0, 0)).1 < m := by
    intro m hm
    by_cases hml : m < minima.length
    · exact hpred m hml hm
    · rw [List.getD_eq_default _ _ (by omega)]
      exact hm
  refine ⟨?_, ?_, ?_⟩
  · obtain ⟨v, hv, hvk, hvv⟩ := lineNumberGo_terminates minima hpred' k k (le_refl _)
    have hln := lineNumber_eq_of_go minima k v hv
    rw [hln]
    exact ⟨hv, by omega, hvv⟩
  · obtain ⟨spans, hspans, -⟩ :=
      extract_join [] minima h0 hpred' k k (le_refl _)
    rw [hspans]
    rfl
  · intro fragments lw
    obtain ⟨spans, hspans, -⟩ :=
      extract_join [] (wrapMinima fragments lw) (by rw [wrapMinima_zero])
        (wrapMinima_pred fragments lw) fragments.length fragments.length (le_refl _)
    rw [hspans]
    rfl

/-- C9 witness: the termination facts at a concrete two-entry table. -/
theorem lineNumbers_terminate_witness :
    (lineNumberGo [(0, 0), (0, 5)] 1 1 = some (lineNumber [(0, 0), (0, 5)] 1)
      ∧ lineNumber [(0, 0), (0, 5)] 1 ≤ 1
      ∧ lineNumberGo [(0, 0), (0, 5)] (lineNumber [(0, 0), (0, 5)] 1) 1
          = some (lineNumber [(0, 0), (0, 5)] 1))
    ∧ (extractSpansGo [(0, 0), (0, 5)] 1 1).isSome
    ∧ (extractSpansGo (wrapMinima [⟨2, 0, 0⟩] (fun _ => 5)) 1 1).isSome := by
  obtain ⟨h1, h2, h3⟩ :=
    lineNumbers_terminate [(0, 0), (0, 5)] 1 (by decide) (by decide) (by decide)
  exact ⟨h1, h2, h3 [⟨2, 0, 0⟩] (fun _ => 5)⟩

/-- C10: for every cost evaluation with `i < j ≤ n`, all indexing performed
by the closure is in bounds (`widths[i]`, `widths[j]`, `fragments[j-1]`,
`minima[i]`), and the unsigned computation
`widths[j] - widths[i] - whitespace + penalty` never underflows: the
prefix-sum difference already contains fragment `j-1`'s content and
whitespace widths, so the `ℕ` value agrees with the exact `ℤ` value. -/
theorem cost_indexing_safe (fragments : List Fragment) (lw : ℕ → ℕ) (i j : ℕ)
    (hij : i < j) (hj : j ≤ fragments.length) :
    i < (widths fragments).length
    ∧ j < (widths fragments).length
    ∧ j - 1 < fragments.length
    ∧ i < (wrapMinima fragments lw).length
    ∧ (widths fragments).getD i 0 + (fragments.getD (j - 1) default).whitespace_width
        ≤ (widths fragments).getD j 0
    ∧ (((widths fragments).getD j 0 - (widths fragments).getD i 0
          - (fragments.getD (j - 1) default).whitespace_width
          + (fragments.getD (j - 1) default).penalty_width : ℕ) : ℤ)
        = ((widths fragments).getD j 0 : ℤ) - ((widths fragments).getD i 0 : ℤ)
          - ((fragments.getD (j - 1) default).whitespace_width : ℤ)
          + ((fragments.getD (j - 1) default).penalty_width : ℤ) := by
  have hwl := widths_length fragments
  have hgi := widths_getD fragments i (by omega)
  have hgj := widths_getD fragments j hj
  have hsucc := prefixWidth_succ fragments (j - 1) (by omega)
  have hj1 : j - 1 + 1 = j := by omega
  rw [hj1] at hsucc
  have hmono := prefixWidth_mono fragments (show i ≤ j - 1 by omega)
  refine ⟨by omega, by omega, by omega, by rw [wrapMinima_length]; omega, by omega, by omega⟩

/-- C10 witness: bounds and no-underflow at a concrete evaluation. -/
theorem cost_indexing_safe_witness :
    0 < (widths exC10).length
    ∧ 2 < (widths exC10).length
    ∧ 2 - 1 < exC10.length
    ∧ 0 < (wrapMinima exC10 (fun _ => 4)).length
    ∧ (widths exC10).getD 0 0 + (exC10.getD (2 - 1) default).whitespace_width
        ≤ (widths exC10).getD 2 0
    ∧ (((widths exC10).getD 2 0 - (widths exC10).getD 0 0
          - (exC10.getD (2 - 1) default).whitespace_width
          + (exC10.getD (2 - 1) default).penalty_width : ℕ) : ℤ)
        = ((widths exC10).getD 2 0 : ℤ) - ((widths exC10).getD 0 0 : ℤ)
          - ((exC10.getD (2 - 1) default).whitespace_width : ℤ)
          + ((exC10.getD (2 - 1) default).penalty_width : ℤ) :=
  cost_indexing_safe exC10 (fun _ => 4) 0 2 (by decide) (by decide)

/-! ### C1: optimality — counterexample at a varying target width -/



set_option maxHeartbeats 2000000 in
theorem exC1_minima :
    wrapMinima exC1 exC1lw = [(0, 0), (0, 11000), (1, 14500), (2, 35500)] := by
  norm_num [wrapMinima, online_column_minima, widths, widthsFrom, exC1, exC1lw,
    ocmExtend, minimizeRow, List.range_succ, cost, lineNumber, lineNumberGo,
    target_width, line_penalty, NLINE_PENALTY, MAX_LINE_PENALTY, OVERFLOW_PENALTY,
    SHORT_LINE_FRACTION, SHORT_LAST_LINE_PENALTY, HYPHEN_PENALTY]

theorem exC1_spans : wrapSpans exC1 exC1lw = [(0, 1), (1, 2), (2, 3)] := by
  unfold wrapSpans
  rw [exC1_minima]
  decide

/-- C1 counterexample: with the varying target widths `exC1lw`, the
partition `[(0,2),(2,3)]` is one of the `2^(n-1)` break combinations and
has strictly smaller total cost (22000) than the partition returned by
`wrap_optimal_fit` (35500): the returned partition's cost is *not* the
minimum over all combinations. -/
theorem wrap_optimal_fit_not_optimal_cex :
    [(0, 2), (2, 3)] ∈ parts 3
    ∧ partCost exC1 exC1lw [(0, 2), (2, 3)]
        < partCost exC1 exC1lw (wrapSpans exC1 exC1lw) := by
  refine ⟨by decide, ?_⟩
  rw [exC1_spans]
  norm_num [partCost, partCostFrom, lineTerm, refLineWidth, prefixWidth, exC1, exC1lw,
    line_penalty, target_width, NLINE_PENALTY, MAX_LINE_PENALTY, OVERFLOW_PENALTY,
    SHORT_LINE_FRACTION, SHORT_LAST_LINE_PENALTY, HYPHEN_PENALTY]

/-- C1 witness: instance of the amended optimality theorem at constant
width 5 with two fragments, compared against the one-line partition. -/
theorem wrap_optimal_fit_const_optimal_witness :
    wrapSpans [⟨2, 1, 0⟩, ⟨3, 0, 0⟩] (fun _ => 5) ∈ parts 2
    ∧ partCost [⟨2, 1, 0⟩, ⟨3, 0, 0⟩] (fun _ => 5)
          (wrapSpans [⟨2, 1, 0⟩, ⟨3, 0, 0⟩] (fun _ => 5))
        ≤ partCost [⟨2, 1, 0⟩, ⟨3, 0, 0⟩] (fun _ => 5) [(0, 2)] := by
  obtain ⟨h1, h2⟩ :=
    wrap_optimal_fit_const_optimal [⟨2, 1, 0⟩, ⟨3, 0, 0⟩] (fun _ => 5) 5
      (fun _ => rfl) (by decide)
  exact ⟨h1, h2 [(0, 2)] (by decide)⟩

/-! ### C7: total monotonicity of the cost matrix -/



set_option maxHeartbeats 2000000 in
theorem exC7_minima :
    wrapMinima exC7 (fun _ => 3) = [(0, 0), (0, 49000 / 9), (0, 1000), (2, 2000)] := by
  norm_num [wrapMinima, online_column_minima, widths, widthsFrom, exC7,
    ocmExtend, minimizeRow, List.range_succ, cost, lineNumber, lineNumberGo,
    target_width, line_penalty, NLINE_PENALTY, MAX_LINE_PENALTY, OVERFLOW_PENALTY,
    SHORT_LINE_FRACTION, SHORT_LAST_LINE_PENALTY, HYPHEN_PENALTY]

set_option maxHeartbeats 1000000 in
/-- C7 counterexample: for "a a a" at constant width 3, the 2×2 submatrix
with rows 0 < 1 and columns 2 < 3 violates the claimed implication: we have
`C(0,3) = 41000 ≥ C(1,3) = 58000/9`, yet `C(0,2) = 1000 < C(1,2) = 98000/9`
— the cost matrix is not totally monotone as claimed. -/
theorem cost_matrix_not_totally_monotone_cex :
    costMatrix exC7 (fun _ => 3) 0 3 ≥ costMatrix exC7 (fun _ => 3) 1 3
    ∧ ¬(costMatrix exC7 (fun _ => 3) 0 2 ≥ costMatrix exC7 (fun _ => 3) 1 2) := by
  constructor <;>
    · unfold costMatrix
      rw [exC7_minima]
      norm_num [cost, lineNumber, lineNumberGo, target_width, line_penalty,
        widths, widthsFrom, exC7, NLINE_PENALTY, MAX_LINE_PENALTY,
        OVERFLOW_PENALTY, SHORT_LINE_FRACTION, SHORT_LAST_LINE_PENALTY,
        HYPHEN_PENALTY]



theorem fShape_of_le (T x : ℕ) (h : x ≤ T) :
    fShape T x
      = (((T - x : ℕ) : ℚ) / (T : ℚ)) * (((T - x : ℕ) : ℚ) / (T : ℚ))
          * MAX_LINE_PENALTY := by
  unfold fShape
  rw [if_neg (by omega)]

theorem fShape_of_gt (T x : ℕ) (h : T < x) :
    fShape T x = ((x - T : ℕ) : ℚ) * OVERFLOW_PENALTY := by
  unfold fShape
  rw [if_pos h]

theorem line_penalty_nonfinal (i j : ℕ) (fragments : List Fragment)
    (x T : ℕ) (mc : ℚ) (hj : j < fragments.length)
    (hpen : (fragments.getD (j - 1) default).penalty_width = 0) :
    line_penalty i j fragments x T mc = mc + NLINE_PENALTY + fShape T x := by
  unfold line_penalty fShape
  split_ifs <;> first | ring1 | (exfalso; omega)

theorem fShape_step_overflow (T x : ℕ) (h : T ≤ x) :
    fShape T (x + 1) - fShape T x = OVERFLOW_PENALTY := by
  rcases Nat.eq_or_lt_of_le h with rfl | hlt
  · rw [fShape_of_gt _ _ (by omega), fShape_of_le _ _ (le_refl _)]
    have h1 : T + 1 - T = 1 := by omega
    have h2 : T - T = 0 := by omega
    rw [h1, h2]
    norm_num
  · rw [fShape_of_gt _ _ (by omega), fShape_of_gt _ _ hlt]
    have h1 : x + 1 - T = (x - T) + 1 := by omega
    rw [h1]
    push_cast
    ring

theorem fShape_step_gap (T x y : ℕ) (hT : 1 ≤ T) (hxy : x ≤ y) (hy : y + 1 ≤ T) :
    fShape T (x + 1) - fShape T x ≤ fShape T (y + 1) - fShape T y := by
  rw [fShape_of_le _ _ (by omega), fShape_of_le _ _ (by omega),
      fShape_of_le _ _ hy, fShape_of_le _ _ (by omega)]
  have hT0 : (0 : ℚ) < (T : ℚ) := by exact_mod_cast hT
  rw [Nat.cast_sub (by omega : x + 1 ≤ T), Nat.cast_sub (by omega : x ≤ T),
      Nat.cast_sub hy, Nat.cast_sub (by omega : y ≤ T)]
  have hxq : (x : ℚ) ≤ (y : ℚ) := by exact_mod_cast hxy
  have hyq : (y : ℚ) + 1 ≤ (T : ℚ) := by exact_mod_cast hy
  rw [MAX_LINE_PENALTY]
  push_cast
  rw [div_mul_div_comm, div_mul_div_comm, div_mul_div_comm, div_mul_div_comm]
  rw [div_mul_eq_mul_div, div_mul_eq_mul_div, div_mul_eq_mul_div, div_mul_eq_mul_div]
  rw [div_sub_div_same, div_sub_div_same]
  rw [div_le_div_iff_of_pos_right (by positivity : (0 : ℚ) < (T : ℚ) * (T : ℚ))]
  nlinarith [hxq, hyq]

theorem fShape_step_mid (T x : ℕ) (hT : 1 ≤ T) (hx : x + 1 ≤ T) :
    fShape T (x + 1) - fShape T x ≤ 0 := by
  rw [fShape_of_le _ _ hx, fShape_of_le _ _ (by omega)]
  have hT0 : (0 : ℚ) < (T : ℚ) := by exact_mod_cast hT
  have hM : (0 : ℚ) ≤ MAX_LINE_PENALTY := by norm_num [MAX_LINE_PENALTY]
  have hnum : ((T - (x + 1) : ℕ) : ℚ) ≤ ((T - x : ℕ) : ℚ) := by
    exact_mod_cast Nat.sub_le_sub_left (by omega) T
  have hnn : (0 : ℚ) ≤ ((T - (x + 1) : ℕ) : ℚ) := Nat.cast_nonneg _
  have hdiv : ((T - (x + 1) : ℕ) : ℚ) / (T : ℚ) ≤ ((T - x : ℕ) : ℚ) / (T : ℚ) :=
    (div_le_div_iff_of_pos_right hT0).mpr hnum
  have hAB : ((T - (x + 1) : ℕ) : ℚ) / (T : ℚ) * (((T - (x + 1) : ℕ) : ℚ) / (T : ℚ))
      ≤ ((T - x : ℕ) : ℚ) / (T : ℚ) * (((T - x : ℕ) : ℚ) / (T : ℚ)) :=
    mul_le_mul hdiv hdiv (div_nonneg hnn hT0.le) (div_nonneg (Nat.cast_nonneg _) hT0.le)
  nlinarith [hAB, hM]

theorem fShape_step_mono (T : ℕ) (hT : 1 ≤ T) (x y : ℕ) (hxy : x ≤ y) :
    fShape T (x + 1) - fShape T x ≤ fShape T (y + 1) - fShape T y := by
  by_cases hyT : y + 1 ≤ T
  · exact fShape_step_gap T x y hT hxy hyT
  · by_cases hxT : x + 1 ≤ T
    · have h1 := fShape_step_mid T x hT hxT
      have h2 := fShape_step_overflow T y (by omega)
      rw [h2]
      have h3 : (0 : ℚ) ≤ OVERFLOW_PENALTY := by
        norm_num [OVERFLOW_PENALTY, MAX_LINE_PENALTY]
      linarith
    · rw [fShape_step_overflow T x (by omega), fShape_step_overflow T y (by omega)]

theorem fShape_shift (T : ℕ) (hT : 1 ≤ T) (a b : ℕ) (hab : a ≤ b) :
    ∀ d : ℕ, fShape T (a + d) - fShape T a ≤ fShape T (b + d) - fShape T b := by
  intro d
  induction d with
  | zero => simp
  | succ d ih =>
    have hstep := fShape_step_mono T hT (a + d) (b + d) (by omega)
    have e1 : a + (d + 1) = a + d + 1 := by omega
    have e2 : b + (d + 1) = b + d + 1 := by omega
    rw [e1, e2]
    linarith

/-- C7 (amended): the cost matrix is not totally monotone as claimed (see
the counterexample); what does hold — for a constant target-width
function, fragments with zero break-marker widths, columns restricted to
non-final lines (`j2 < n`), and any minima table the closure may read —
is the submodularity (Monge) inequality
`C(i1,j1) + C(i2,j2) ≤ C(i1,j2) + C(i2,j1)`, which yields total
monotonicity in the orientation the SMAWK algorithm requires: whenever
`C(i1,j1) ≥ C(i2,j1)` at an earlier column, `C(i1,j2) ≥ C(i2,j2)` at every
later column. -/
theorem cost_matrix_monge (fragments : List Fragment) (lw : ℕ → ℕ) (c : ℕ)
    (hc : ∀ k, lw k = c) (hpen : ∀ f ∈ fragments, f.penalty_width = 0)
    (m : List (ℕ × ℚ)) (i1 i2 j1 j2 : ℕ)
    (h1 : i1 < i2) (h2 : i2 < j1) (h3 : j1 < j2) (h4 : j2 < fragments.length) :
    cost fragments (widths fragments) lw m i1 j1
        + cost fragments (widths fragments) lw m i2 j2
      ≤ cost fragments (widths fragments) lw m i1 j2
        + cost fragments (widths fragments) lw m i2 j1 := by
  have hT : 1 ≤ max 1 c := le_max_left 1 c
  have hd : ∀ i j, i < j → j < fragments.length →
      cost fragments (widths fragments) lw m i j
        = (m.getD i (0, 0)).2 + NLINE_PENALTY
          + fShape (max 1 c)
              (prefixWidth fragments j
                - (fragments.getD (j - 1) default).whitespace_width
                - prefixWidth fragments i) := by
    intro i j hij hj
    rw [cost_decomp fragments lw m i j (by omega) (by omega),
        target_width_const lw c hc, lineTerm]
    have hp0 : (fragments.getD (j - 1) default).penalty_width = 0 := by
      apply hpen
      rw [List.getD_eq_getElem fragments default (by omega : j - 1 < fragments.length)]
      exact List.getElem_mem _
    rw [line_penalty_nonfinal i j fragments _ _ 0 hj hp0]
    have hxw : refLineWidth fragments i j
        = prefixWidth fragments j - (fragments.getD (j - 1) default).whitespace_width
            - prefixWidth fragments i := by
      unfold refLineWidth
      omega
    rw [hxw]
    ring
  rw [hd i1 j1 (by omega) (by omega), hd i2 j2 (by omega) h4,
      hd i1 j2 (by omega) h4, hd i2 j1 (by omega) (by omega)]
  have hsucc1 := prefixWidth_succ fragments (j1 - 1) (by omega)
  have hj11 : j1 - 1 + 1 = j1 := by omega
  rw [hj11] at hsucc1
  have hsucc2 := prefixWidth_succ fragments (j2 - 1) (by omega)
  have hj21 : j2 - 1 + 1 = j2 := by omega
  rw [hj21] at hsucc2
  have hm1 := prefixWidth_mono fragments (show i1 ≤ i2 by omega)
  have hm2 := prefixWidth_mono fragments (show i2 ≤ j1 - 1 by omega)
  have hm3 := prefixWidth_mono fragments (show j1 ≤ j2 - 1 by omega)
  set a1 := prefixWidth fragments i1 with ha1
  set a2 := prefixWidth fragments i2 with ha2
  set B1 := prefixWidth fragments j1
      - (fragments.getD (j1 - 1) default).whitespace_width with hB1
  set B2 := prefixWidth fragments j2
      - (fragments.getD (j2 - 1) default).whitespace_width with hB2
  have ha2B1 : a2 ≤ B1 := by omega
  have hB12 : B1 ≤ B2 := by omega
  have e1 : B1 - a1 = B1 - a2 + (a2 - a1) := by omega
  have e2 : B2 - a1 = B2 - a2 + (a2 - a1) := by omega
  have hshift :=
    fShape_shift (max 1 c) hT (B1 - a2) (B2 - a2) (by omega) (a2 - a1)
  rw [e1, e2]
  linarith

/-- C7 witness: the Monge inequality at a concrete instance — four
unit-width words at constant target width 3, rows 0 < 1, columns 2 < 3. -/
theorem cost_matrix_monge_witness :
    cost [⟨1, 1, 0⟩, ⟨1, 1, 0⟩, ⟨1, 1, 0⟩, ⟨1, 0, 0⟩]
          (widths [⟨1, 1, 0⟩, ⟨1, 1, 0⟩, ⟨1, 1, 0⟩, ⟨1, 0, 0⟩]) (fun _ => 3) [(0, 0)] 0 2
        + cost [⟨1, 1, 0⟩, ⟨1, 1, 0⟩, ⟨1, 1, 0⟩, ⟨1, 0, 0⟩]
            (widths [⟨1, 1, 0⟩, ⟨1, 1, 0⟩, ⟨1, 1, 0⟩, ⟨1, 0, 0⟩]) (fun _ => 3) [(0, 0)] 1 3
      ≤ cost [⟨1, 1, 0⟩, ⟨1, 1, 0⟩, ⟨1, 1, 0⟩, ⟨1, 0, 0⟩]
            (widths [⟨1, 1, 0⟩, ⟨1, 1, 0⟩, ⟨1, 1, 0⟩, ⟨1, 0, 0⟩]) (fun _ => 3) [(0, 0)] 0 3
        + cost [⟨1, 1, 0⟩, ⟨1, 1, 0⟩, ⟨1, 1, 0⟩, ⟨1, 0, 0⟩]
            (widths [⟨1, 1, 0⟩, ⟨1, 1, 0⟩, ⟨1, 1, 0⟩, ⟨1, 0, 0⟩]) (fun _ => 3) [(0, 0)] 1 2 :=
  cost_matrix_monge [⟨1, 1, 0⟩, ⟨1, 1, 0⟩, ⟨1, 1, 0⟩, ⟨1, 0, 0⟩] (fun _ => 3) 3
    (fun _ => rfl) (by decide) [(0, 0)] 0 1 2 3
    (by decide) (by decide) (by decide) (by decide)

end OptimalFit
